import Mathlib

/-!
Verification of the arithmetic core of the OpenZKP repository: the 256-bit
unsigned integer type (`src/algebra/u256/src/u256.rs`) and the Jacobian
elliptic-curve accumulator (`src/algebra/elliptic-curve/src/jacobian.rs`).

Machine integers are modelled as `Nat` with explicit `% 2^64` wrapping.
The limb primitives `adc`, `sbb`, `mac` live in `utils.rs`, which is not part
of the provided sources; they are modelled from the spec (§2: "carrying add,
borrowing sub, multiply-accumulate `mac(acc, a, b, carry) = acc + a*b + carry`
producing a 128-bit result split into low 64 bits and carry").
-/

/-- The 64-bit word base. -/
def B64 : Nat := 2 ^ 64

/-- Modelled from the spec: `utils.rs` is missing from the sources. The spec
defines `mac(acc, a, b, carry) = acc + a*b + carry` producing a 128-bit result
split into low 64 bits and carry. -/
def mac (acc a b carry : Nat) : Nat × Nat :=
  ((acc + a * b + carry) % B64, (acc + a * b + carry) / B64)

/-- Modelled from the spec: `utils.rs` is missing from the sources. The spec
describes `adc` as the carrying 64-bit add primitive. -/
def adc (a b carry : Nat) : Nat × Nat :=
  ((a + b + carry) % B64, (a + b + carry) / B64)

/-- Modelled from the spec: `utils.rs` is missing from the sources. The spec
describes `sbb` as the borrowing 64-bit sub primitive: the difference wraps
modulo 2^64 and the second component is the borrow out (0 or 1). -/
def sbb (a b borrow : Nat) : Nat × Nat :=
  ((B64 + a - (b + borrow)) % B64, 1 - (B64 + a - (b + borrow)) / B64)

/-- `U256` from `u256.rs`: four 64-bit limbs, little-endian limb order. -/
structure U256 where
  c0 : Nat
  c1 : Nat
  c2 : Nat
  c3 : Nat
deriving DecidableEq, Repr

namespace U256

/-- `U256::from_limbs`. -/
def from_limbs (c0 c1 c2 c3 : Nat) : U256 := ⟨c0, c1, c2, c3⟩

/-- `U256::ZERO`. -/
def ZERO : U256 := from_limbs 0 0 0 0

/-- `U256::ONE`. -/
def ONE : U256 := from_limbs 1 0 0 0

/-- `U256::MAX`. -/
def MAX : U256 := from_limbs (2^64 - 1) (2^64 - 1) (2^64 - 1) (2^64 - 1)

/-- The numeric value of a `U256` (spec §3: value = c0 + c1·2^64 + c2·2^128 + c3·2^192). -/
def val (x : U256) : Nat :=
  x.c0 + 2 ^ 64 * x.c1 + 2 ^ 128 * x.c2 + 2 ^ 192 * x.c3

/-- Well-formedness: every limb is a 64-bit value.  All constructors and
operations of the embedding produce well-formed values. -/
def wf (x : U256) : Prop :=
  x.c0 < 2 ^ 64 ∧ x.c1 < 2 ^ 64 ∧ x.c2 < 2 ^ 64 ∧ x.c3 < 2 ^ 64

instance (x : U256) : Decidable x.wf := by unfold wf; infer_instance

/-- `From<u64> for U256` (zero extension). -/
def ofU64 (n : Nat) : U256 := from_limbs (n % 2^64) 0 0 0

/-- `AddAssign<&U256>` from `u256.rs`: limbwise `adc` chain, wrapping. -/
def add (a b : U256) : U256 :=
  let (c0, carry) := adc a.c0 b.c0 0
  let (c1, carry) := adc a.c1 b.c1 carry
  let (c2, carry) := adc a.c2 b.c2 carry
  let (c3, _) := adc a.c3 b.c3 carry
  ⟨c0, c1, c2, c3⟩

/-- `SubAssign<&U256>` from `u256.rs`: limbwise `sbb` chain, wrapping. -/
def sub (a b : U256) : U256 :=
  let (c0, borrow) := sbb a.c0 b.c0 0
  let (c1, borrow) := sbb a.c1 b.c1 borrow
  let (c2, borrow) := sbb a.c2 b.c2 borrow
  let (c3, _) := sbb a.c3 b.c3 borrow
  ⟨c0, c1, c2, c3⟩

/-- `MulAssign<&U256>` from `u256.rs`: truncated 256-bit schoolbook product
via `mac` over the limb pairs, discarding the high half. -/
def mul (a b : U256) : U256 :=
  let (r0, carry) := mac 0 a.c0 b.c0 0
  let (r1, carry) := mac 0 a.c0 b.c1 carry
  let (r2, carry) := mac 0 a.c0 b.c2 carry
  let (r3, _) := mac 0 a.c0 b.c3 carry
  let (r1, carry) := mac r1 a.c1 b.c0 0
  let (r2, carry) := mac r2 a.c1 b.c1 carry
  let (r3, _) := mac r3 a.c1 b.c2 carry
  let (r2, carry) := mac r2 a.c2 b.c0 0
  let (r3, _) := mac r3 a.c2 b.c1 carry
  let (r3, _) := mac r3 a.c3 b.c0 0
  ⟨r0, r1, r2, r3⟩

/-- `U256::mul_full` from `u256.rs`: full 512-bit product as `(lo, hi)`. -/
def mul_full (a b : U256) : U256 × U256 :=
  let (r0, carry) := mac 0 a.c0 b.c0 0
  let (r1, carry) := mac 0 a.c0 b.c1 carry
  let (r2, carry) := mac 0 a.c0 b.c2 carry
  let (r3, r4) := mac 0 a.c0 b.c3 carry
  let (r1, carry) := mac r1 a.c1 b.c0 0
  let (r2, carry) := mac r2 a.c1 b.c1 carry
  let (r3, carry) := mac r3 a.c1 b.c2 carry
  let (r4, r5) := mac r4 a.c1 b.c3 carry
  let (r2, carry) := mac r2 a.c2 b.c0 0
  let (r3, carry) := mac r3 a.c2 b.c1 carry
  let (r4, carry) := mac r4 a.c2 b.c2 carry
  let (r5, r6) := mac r5 a.c2 b.c3 carry
  let (r3, carry) := mac r3 a.c3 b.c0 0
  let (r4, carry) := mac r4 a.c3 b.c1 carry
  let (r5, carry) := mac r5 a.c3 b.c2 carry
  let (r6, r7) := mac r6 a.c3 b.c3 carry
  (⟨r0, r1, r2, r3⟩, ⟨r4, r5, r6, r7⟩)

theorem val_lt_of_wf {x : U256} (h : x.wf) : x.val < 2 ^ 256 := by
  obtain ⟨h0, h1, h2, h3⟩ := h
  unfold val
  omega

theorem eq_of_val_eq {x y : U256} (hx : x.wf) (hy : y.wf) (h : x.val = y.val) : x = y := by
  obtain ⟨hx0, hx1, hx2, hx3⟩ := hx
  obtain ⟨hy0, hy1, hy2, hy3⟩ := hy
  unfold val at h
  obtain ⟨x0, x1, x2, x3⟩ := x
  obtain ⟨y0, y1, y2, y3⟩ := y
  simp only [mk.injEq]
  simp only at h hx0 hx1 hx2 hx3 hy0 hy1 hy2 hy3
  omega

theorem add_wf (a b : U256) : (add a b).wf := by
  unfold add adc wf B64
  refine ⟨?_, ?_, ?_, ?_⟩ <;> simp <;> omega

theorem add_val (a b : U256) : (add a b).val = (a.val + b.val) % 2 ^ 256 := by
  obtain ⟨a0, a1, a2, a3⟩ := a
  obtain ⟨b0, b1, b2, b3⟩ := b
  unfold add adc val B64
  simp only
  omega

theorem sub_wf (a b : U256) : (sub a b).wf := by
  unfold sub sbb wf B64
  refine ⟨?_, ?_, ?_, ?_⟩ <;> simp <;> omega

theorem sub_val {a b : U256} (ha : a.wf) (hb : b.wf) :
    (sub a b).val = (2 ^ 256 + a.val - b.val) % 2 ^ 256 := by
  obtain ⟨ha0, ha1, ha2, ha3⟩ := ha
  obtain ⟨hb0, hb1, hb2, hb3⟩ := hb
  obtain ⟨a0, a1, a2, a3⟩ := a
  obtain ⟨b0, b1, b2, b3⟩ := b
  unfold sub sbb val B64
  simp only at *
  omega

theorem mul_full_val (a b : U256) :
    (mul_full a b).1.val + 2 ^ 256 * (mul_full a b).2.val = a.val * b.val := by
  obtain ⟨a0, a1, a2, a3⟩ := a
  obtain ⟨b0, b1, b2, b3⟩ := b
  unfold mul_full mac val B64
  simp only
  have hexp : (a0 + 2^64*a1 + 2^128*a2 + 2^192*a3) * (b0 + 2^64*b1 + 2^128*b2 + 2^192*b3)
      = a0*b0 + 2^64*(a0*b1) + 2^64*(a1*b0) + 2^128*(a0*b2) + 2^128*(a1*b1)
        + 2^128*(a2*b0) + 2^192*(a0*b3) + 2^192*(a1*b2) + 2^192*(a2*b1) + 2^192*(a3*b0)
        + 2^256*(a1*b3) + 2^256*(a2*b2) + 2^256*(a3*b1) + 2^320*(a2*b3) + 2^320*(a3*b2)
        + 2^384*(a3*b3) := by ring
  rw [hexp]
  generalize a0*b0 = p00
  generalize a0*b1 = p01
  generalize a0*b2 = p02
  generalize a0*b3 = p03
  generalize a1*b0 = p10
  generalize a1*b1 = p11
  generalize a1*b2 = p12
  generalize a1*b3 = p13
  generalize a2*b0 = p20
  generalize a2*b1 = p21
  generalize a2*b2 = p22
  generalize a2*b3 = p23
  generalize a3*b0 = p30
  generalize a3*b1 = p31
  generalize a3*b2 = p32
  generalize a3*b3 = p33
  omega

/-- The truncated product is limb-for-limb the same computation as the low
half of `mul_full`. -/
theorem mul_eq_lo (a b : U256) : mul a b = (mul_full a b).1 := by
  obtain ⟨a0, a1, a2, a3⟩ := a
  obtain ⟨b0, b1, b2, b3⟩ := b
  rfl

theorem mul_full_lo_wf (a b : U256) : (mul_full a b).1.wf := by
  obtain ⟨a0, a1, a2, a3⟩ := a
  obtain ⟨b0, b1, b2, b3⟩ := b
  unfold mul_full mac wf B64
  refine ⟨?_, ?_, ?_, ?_⟩ <;> simp <;> omega

theorem mul_wf (a b : U256) : (mul a b).wf := by
  rw [mul_eq_lo]; exact mul_full_lo_wf a b

theorem mul_val (a b : U256) : (mul a b).val = a.val * b.val % 2 ^ 256 := by
  rw [mul_eq_lo]
  have h := mul_full_val a b
  have hlo := val_lt_of_wf (mul_full_lo_wf a b)
  omega

/-- `Ord for U256` from `u256.rs`: limbwise comparison from `c3` down to `c0`. -/
def cmp (a b : U256) : Ordering :=
  if a.c3 < b.c3 then .lt else if b.c3 < a.c3 then .gt
  else if a.c2 < b.c2 then .lt else if b.c2 < a.c2 then .gt
  else if a.c1 < b.c1 then .lt else if b.c1 < a.c1 then .gt
  else if a.c0 < b.c0 then .lt else if b.c0 < a.c0 then .gt
  else .eq

/-- `a < b` via `PartialOrd`, i.e. `cmp` returning `Less`. -/
def ltb (a b : U256) : Prop := cmp a b = .lt

instance (a b : U256) : Decidable (ltb a b) := by unfold ltb; infer_instance

/-- `a > b` via `PartialOrd`, i.e. `cmp` returning `Greater`. -/
def gtb (a b : U256) : Prop := cmp a b = .gt

instance (a b : U256) : Decidable (gtb a b) := by unfold gtb; infer_instance

theorem ltb_iff_val {a b : U256} (ha : a.wf) (hb : b.wf) :
    ltb a b ↔ a.val < b.val := by
  obtain ⟨ha0, ha1, ha2, ha3⟩ := ha
  obtain ⟨hb0, hb1, hb2, hb3⟩ := hb
  obtain ⟨a0, a1, a2, a3⟩ := a
  obtain ⟨b0, b1, b2, b3⟩ := b
  unfold ltb cmp val
  simp only at *
  split_ifs
  all_goals simp
  all_goals omega

theorem gtb_iff_val {a b : U256} (ha : a.wf) (hb : b.wf) :
    gtb a b ↔ b.val < a.val := by
  obtain ⟨ha0, ha1, ha2, ha3⟩ := ha
  obtain ⟨hb0, hb1, hb2, hb3⟩ := hb
  obtain ⟨a0, a1, a2, a3⟩ := a
  obtain ⟨b0, b1, b2, b3⟩ := b
  unfold gtb cmp val
  simp only at *
  split_ifs
  all_goals simp
  all_goals omega

/-- `U256::bit` from `u256.rs`. -/
def bit (x : U256) (i : Nat) : Bool :=
  if i < 64 then x.c0 >>> i &&& 1 == 1
  else if i < 128 then x.c1 >>> (i - 64) &&& 1 == 1
  else if i < 192 then x.c2 >>> (i - 128) &&& 1 == 1
  else if i < 256 then x.c3 >>> (i - 192) &&& 1 == 1
  else false

/-- `U256::leading_zeros` from `u256.rs`.  For a nonzero `u64` limb `c`,
`c.leading_zeros() = 63 - log2 c`. -/
def leading_zeros (x : U256) : Nat :=
  if x.c3 > 0 then 63 - Nat.log2 x.c3
  else if x.c2 > 0 then 64 + (63 - Nat.log2 x.c2)
  else if x.c1 > 0 then 128 + (63 - Nat.log2 x.c1)
  else if x.c0 > 0 then 192 + (63 - Nat.log2 x.c0)
  else 256

/-- `U256::msb` from `u256.rs` computes `255 - self.leading_zeros()` on
`usize`.  When the value is zero, `leading_zeros()` is 256 and the
subtraction underflows (a panic in debug builds); the underflow is modelled
as `none`. -/
def msb (x : U256) : Option Nat :=
  if x.leading_zeros ≤ 255 then some (255 - x.leading_zeros) else none

/-- `U256::is_even` from `u256.rs`. -/
def is_even (x : U256) : Bool := x.c0 &&& 1 == 0

/-- `U256::is_odd` from `u256.rs`. -/
def is_odd (x : U256) : Bool := x.c0 &&& 1 == 1

/-- `U256::as_u128` from `u256.rs`: `c0 | (c1 << 64)`. -/
def as_u128 (x : U256) : Nat := x.c0 ||| x.c1 <<< 64

/-- Pack a value into `k` little-endian 64-bit limbs. -/
def natLimbs (v k : Nat) : List Nat := (List.range k).map (fun i => v / 2 ^ (64 * i) % 2 ^ 64)

/-- The value of a little-endian 64-bit limb list. -/
def limbsVal (l : List Nat) : Nat := l.foldr (fun d acc => d + 2 ^ 64 * acc) 0

/-- Modelled from the spec: `division.rs` (`divrem_nbym`, Knuth Algorithm D,
the shared kernel operating on mutable limb arrays) is missing from the
sources.  Per the spec's contract the limbs `[0, m)` of the numerator hold
the remainder and the limbs `[m, n)` hold the quotient after the call;
modelled as exact division on the packed values. -/
def divrem_nbym (numerator divisor : List Nat) : List Nat :=
  natLimbs (limbsVal numerator % limbsVal divisor) divisor.length
    ++ natLimbs (limbsVal numerator / limbsVal divisor) (numerator.length - divisor.length)

/-- Modelled from the spec: the single-limb shift/subtract division
(`divrem_nby1`, Knuth Algorithm S) from `division.rs` is missing from the
sources.  The quotient limbs replace the numerator and the remainder is
returned. -/
def divrem_nby1 (numerator : List Nat) (divisor : Nat) : List Nat × Nat :=
  (natLimbs (limbsVal numerator / divisor) numerator.length,
   limbsVal numerator % divisor)

/-- `U256::divrem` from `u256.rs`: dispatch on the top nonzero divisor limb. -/
def divrem (a b : U256) : Option (U256 × U256) :=
  let numerator := [a.c0, a.c1, a.c2, a.c3, 0]
  if b.c3 > 0 then
    let n := divrem_nbym numerator [b.c0, b.c1, b.c2, b.c3]
    some (from_limbs (n.getD 4 0) 0 0 0,
          from_limbs (n.getD 0 0) (n.getD 1 0) (n.getD 2 0) (n.getD 3 0))
  else if b.c2 > 0 then
    let n := divrem_nbym numerator [b.c0, b.c1, b.c2]
    some (from_limbs (n.getD 3 0) (n.getD 4 0) 0 0,
          from_limbs (n.getD 0 0) (n.getD 1 0) (n.getD 2 0) 0)
  else if b.c1 > 0 then
    let n := divrem_nbym numerator [b.c0, b.c1]
    some (from_limbs (n.getD 2 0) (n.getD 3 0) (n.getD 4 0) 0,
          from_limbs (n.getD 0 0) (n.getD 1 0) 0 0)
  else if b.c0 > 0 then
    let p := divrem_nby1 numerator b.c0
    some (from_limbs (p.1.getD 0 0) (p.1.getD 1 0) (p.1.getD 2 0) (p.1.getD 3 0),
          from_limbs p.2 0 0 0)
  else
    none

/-- Pack an arbitrary value into a `U256` by truncation. -/
def ofNat (v : Nat) : U256 :=
  ⟨v % 2 ^ 64, v / 2 ^ 64 % 2 ^ 64, v / 2 ^ 128 % 2 ^ 64, v / 2 ^ 192 % 2 ^ 64⟩

theorem ofNat_wf (v : Nat) : (ofNat v).wf := by
  unfold ofNat wf
  refine ⟨?_, ?_, ?_, ?_⟩ <;> simp <;> omega

theorem ofNat_val (v : Nat) : (ofNat v).val = v % 2 ^ 256 := by
  unfold ofNat val
  simp only
  omega

theorem ofNat_val_of_lt {v : Nat} (h : v < 2 ^ 256) : (ofNat v).val = v := by
  rw [ofNat_val]; omega

theorem ofNat_val_self {x : U256} (h : x.wf) : ofNat x.val = x :=
  eq_of_val_eq (ofNat_wf _) h (ofNat_val_of_lt (val_lt_of_wf h))

theorem limbsVal_numerator (a : U256) : limbsVal [a.c0, a.c1, a.c2, a.c3, 0] = a.val := by
  unfold limbsVal val
  simp only [List.foldr]
  ring

theorem divrem_eq {a b : U256} (ha : a.wf) (hb : b.wf) (hbz : b ≠ ZERO) :
    divrem a b = some (ofNat (a.val / b.val), ofNat (a.val % b.val)) := by
  have hA := val_lt_of_wf ha
  obtain ⟨hb0, hb1, hb2, hb3⟩ := hb
  have hBval : b.val = b.c0 + 2 ^ 64 * b.c1 + 2 ^ 128 * b.c2 + 2 ^ 192 * b.c3 := rfl
  have hBz : b.val ≠ 0 := by
    intro h
    apply hbz
    have : b.c0 = 0 ∧ b.c1 = 0 ∧ b.c2 = 0 ∧ b.c3 = 0 := by omega
    obtain ⟨e0, e1, e2, e3⟩ := this
    obtain ⟨x0, x1, x2, x3⟩ := b
    simp only at e0 e1 e2 e3
    simp [ZERO, from_limbs, e0, e1, e2, e3]
  have hrem : a.val % b.val < b.val := Nat.mod_lt _ (by omega)
  unfold divrem
  by_cases h3 : b.c3 > 0
  · rw [if_pos h3]
    have hD : limbsVal [b.c0, b.c1, b.c2, b.c3] = b.val := by
      unfold limbsVal val; simp only [List.foldr]; ring
    have hq : a.val / b.val < 2 ^ 64 := by
      apply Nat.div_lt_of_lt_mul
      calc a.val < 2 ^ 256 := hA
        _ = 2 ^ 192 * 2 ^ 64 := by norm_num
        _ ≤ b.val * 2 ^ 64 := Nat.mul_le_mul_right _ (by omega)
    have e1 : a.val / b.val / 2 ^ 64 = 0 := Nat.div_eq_of_lt hq
    have e2 : a.val / b.val / 2 ^ 128 = 0 := Nat.div_eq_of_lt (by omega)
    have e3 : a.val / b.val / 2 ^ 192 = 0 := Nat.div_eq_of_lt (by omega)
    simp only [divrem_nbym, limbsVal_numerator, hD, natLimbs, List.range_succ,
      List.range_zero, List.map_append, List.map_cons, List.map_nil, List.nil_append,
      List.cons_append, List.getD, List.length_cons, List.length_nil]
    norm_num [from_limbs, ofNat, Prod.mk.injEq, mk.injEq]
    and_intros <;> omega
  · rw [if_neg h3]
    by_cases h2 : b.c2 > 0
    · rw [if_pos h2]
      have hD : limbsVal [b.c0, b.c1, b.c2] = b.val := by
        unfold limbsVal val; simp only [List.foldr]; omega
      have hq : a.val / b.val < 2 ^ 128 := by
        apply Nat.div_lt_of_lt_mul
        calc a.val < 2 ^ 256 := hA
          _ = 2 ^ 128 * 2 ^ 128 := by norm_num
          _ ≤ b.val * 2 ^ 128 := Nat.mul_le_mul_right _ (by omega)
      have hr : a.val % b.val < 2 ^ 192 := by omega
      have e2 : a.val / b.val / 2 ^ 128 = 0 := Nat.div_eq_of_lt hq
      have e3 : a.val / b.val / 2 ^ 192 = 0 := Nat.div_eq_of_lt (by omega)
      have er3 : a.val % b.val / 2 ^ 192 = 0 := Nat.div_eq_of_lt hr
      simp only [divrem_nbym, limbsVal_numerator, hD, natLimbs, List.range_succ,
        List.range_zero, List.map_append, List.map_cons, List.map_nil, List.nil_append,
        List.cons_append, List.getD, List.length_cons, List.length_nil]
      norm_num [from_limbs, ofNat, Prod.mk.injEq, mk.injEq]
      and_intros <;> omega
    · rw [if_neg h2]
      by_cases h1 : b.c1 > 0
      · rw [if_pos h1]
        have hD : limbsVal [b.c0, b.c1] = b.val := by
          unfold limbsVal val; simp only [List.foldr]; omega
        have hq : a.val / b.val < 2 ^ 192 := by
          apply Nat.div_lt_of_lt_mul
          calc a.val < 2 ^ 256 := hA
            _ = 2 ^ 64 * 2 ^ 192 := by norm_num
            _ ≤ b.val * 2 ^ 192 := Nat.mul_le_mul_right _ (by omega)
        have hr : a.val % b.val < 2 ^ 128 := by omega
        have e3 : a.val / b.val / 2 ^ 192 = 0 := Nat.div_eq_of_lt hq
        have er2 : a.val % b.val / 2 ^ 128 = 0 := Nat.div_eq_of_lt hr
        have er3 : a.val % b.val / 2 ^ 192 = 0 := Nat.div_eq_of_lt (by omega)
        simp only [divrem_nbym, limbsVal_numerator, hD, natLimbs, List.range_succ,
          List.range_zero, List.map_append, List.map_cons, List.map_nil, List.nil_append,
          List.cons_append, List.getD, List.length_cons, List.length_nil]
        norm_num [from_limbs, ofNat, Prod.mk.injEq, mk.injEq]
        and_intros <;> omega
      · rw [if_neg h1]
        have h0 : b.c0 > 0 := by omega
        rw [if_pos h0]
        have hD : b.val = b.c0 := by omega
        rw [hD] at hrem ⊢
        have hr : a.val % b.c0 < 2 ^ 64 := by omega
        have er1 : a.val % b.c0 / 2 ^ 64 = 0 := Nat.div_eq_of_lt (by omega)
        have er2 : a.val % b.c0 / 2 ^ 128 = 0 := Nat.div_eq_of_lt (by omega)
        have er3 : a.val % b.c0 / 2 ^ 192 = 0 := Nat.div_eq_of_lt (by omega)
        simp only [divrem_nby1, limbsVal_numerator, natLimbs, List.range_succ,
          List.range_zero, List.map_append, List.map_cons, List.map_nil, List.nil_append,
          List.cons_append, List.getD, List.length_cons, List.length_nil]
        norm_num [from_limbs, ofNat, Prod.mk.injEq, mk.injEq]
        and_intros <;> omega

theorem lor_shift_eq_add {a : Nat} (b : Nat) (h : a < 2 ^ 64) :
    a ||| (b <<< 64) = a + 2 ^ 64 * b := by
  apply Nat.eq_of_testBit_eq
  intro i
  rw [Nat.testBit_lor, Nat.testBit_shiftLeft,
    show a + 2 ^ 64 * b = 2 ^ 64 * b + a by ring,
    Nat.testBit_mul_pow_two_add _ h]
  rcases lt_or_ge i 64 with hi | hi
  · simp [hi, Nat.not_le.mpr hi]
  · rw [if_neg (Nat.not_lt.mpr hi)]
    have : a.testBit i = false :=
      Nat.testBit_lt_two_pow (lt_of_lt_of_le h (Nat.pow_le_pow_right (by norm_num) hi))
    simp [this, hi]

theorem as_u128_eq {a : U256} (ha : a.wf) : a.as_u128 = a.c0 + 2 ^ 64 * a.c1 :=
  lor_shift_eq_add a.c1 ha.1

theorem xor_mod_two_pow (a b k : Nat) :
    (a ^^^ b) % 2 ^ k = (a % 2 ^ k) ^^^ (b % 2 ^ k) := by
  apply Nat.eq_of_testBit_eq
  intro i
  simp only [Nat.testBit_mod_two_pow, Nat.testBit_xor]
  by_cases h : i < k <;> simp [h]

/-- One Hensel-lifted Newton step, as computed with wrapping arithmetic at
word size `M`: if `r` inverts `c` modulo `2^k` then `r * (2 - c*r)` inverts
`c` modulo `2^(2k)`. -/
theorem hensel_step {c r M : Nat} (k : Nat) (hM : (2:ℤ) ^ (2 * k) ∣ (M:ℤ)) (hM0 : 0 < M)
    (h : (2:ℤ) ^ k ∣ (c:ℤ) * r - 1) :
    (2:ℤ) ^ (2 * k) ∣ (c:ℤ) * (((r * ((2 + M - c * r % M) % M)) % M : ℕ) : ℤ) - 1 := by
  have hle : c * r % M ≤ 2 + M := le_trans (le_of_lt (Nat.mod_lt _ hM0)) (by omega)
  have e1 : ((2 + M - c * r % M : ℕ) : ℤ) = 2 + (M:ℤ) - ((c:ℤ) * r) % (M:ℤ) := by
    rw [Nat.cast_sub hle]
    push_cast
    ring
  have h1 : ((r * ((2 + M - c * r % M) % M)) % M : ℕ) ≡
      (r:ℤ) * (2 - (c:ℤ) * r) [ZMOD (M:ℤ)] := by
    calc ((r * ((2 + M - c * r % M) % M)) % M : ℕ) ≡
          ((r * ((2 + M - c * r % M) % M) : ℕ) : ℤ) [ZMOD (M:ℤ)] := by
            push_cast; exact Int.mod_modEq _ _
      _ = (r:ℤ) * (((2 + (M:ℤ) - ((c:ℤ)*r) % M) % (M:ℤ))) := by push_cast [e1]; ring
      _ ≡ (r:ℤ) * (2 + (M:ℤ) - ((c:ℤ)*r) % M) [ZMOD (M:ℤ)] :=
            Int.ModEq.mul_left _ (Int.mod_modEq _ _)
      _ ≡ (r:ℤ) * (2 + 0 - (c:ℤ)*r) [ZMOD (M:ℤ)] := by
            apply Int.ModEq.mul_left
            apply Int.ModEq.sub
            · exact Int.ModEq.add_left _ (Int.modEq_zero_iff_dvd.mpr dvd_rfl)
            · exact Int.mod_modEq _ _
      _ = (r:ℤ) * (2 - (c:ℤ) * r) := by ring
  have h2 : ((c:ℤ)) * (((r * ((2 + M - c * r % M) % M)) % M : ℕ) : ℤ) ≡
      (c:ℤ) * ((r:ℤ) * (2 - (c:ℤ)*r)) [ZMOD (2:ℤ) ^ (2 * k)] :=
    Int.ModEq.of_dvd hM (Int.ModEq.mul_left _ h1)
  have h3 : (2:ℤ) ^ (2 * k) ∣ (c:ℤ) * ((r:ℤ) * (2 - (c:ℤ)*r)) - 1 := by
    obtain ⟨t, ht⟩ := h
    have e : (c:ℤ) * ((r:ℤ) * (2 - (c:ℤ)*r)) - 1 = -((2 ^ k * t) ^ 2) := by
      rw [← ht]; ring
    rw [e]
    exact ⟨-(t ^ 2), by ring⟩
  have h4 := Int.ModEq.dvd h2
  calc (2:ℤ) ^ (2 * k) ∣ ((c:ℤ)*((r:ℤ)*(2-(c:ℤ)*r)) - 1) -
      ((c:ℤ)*((r:ℤ)*(2-(c:ℤ)*r)) - (c:ℤ)*(((r * ((2 + M - c * r % M) % M)) % M : ℕ) : ℤ)) :=
        dvd_sub h3 h4
    _ = (c:ℤ) * (((r * ((2 + M - c * r % M) % M)) % M : ℕ) : ℤ) - 1 := by ring

/-- The initial 4-bit seed `(3c) XOR 2` inverts an odd `c` modulo 16. -/
theorem inv_seed_spec {c : Nat} (h : c % 2 = 1) :
    (2:ℤ) ^ 4 ∣ (c:ℤ) * ((((3 * c) % 2 ^ 64 ^^^ 2 : ℕ)) : ℤ) - 1 := by
  have h1 : ((3 * c) % 2 ^ 64 ^^^ 2) % 16 = ((3 * (c % 16)) % 16) ^^^ 2 := by
    have e : (16:ℕ) = 2 ^ 4 := by norm_num
    rw [e, xor_mod_two_pow]
    rw [Nat.mod_mod_of_dvd _ (by norm_num : (2:ℕ) ^ 4 ∣ 2 ^ 64)]
    rw [Nat.mul_mod]
    norm_num
  have key : ∀ d, d < 16 → d % 2 = 1 → ((((3 * d) % 16) ^^^ 2) * d) % 16 = 1 := by decide
  have hd : c % 16 < 16 := Nat.mod_lt _ (by norm_num)
  have hdodd : (c % 16) % 2 = 1 := by omega
  have hmod : (((3 * c) % 2 ^ 64 ^^^ 2) * c) % 16 = 1 := by
    rw [Nat.mul_mod, h1]
    exact key (c % 16) hd hdodd
  have hcomm : ((3 * c) % 2 ^ 64 ^^^ 2) * c = c * ((3 * c) % 2 ^ 64 ^^^ 2) :=
    Nat.mul_comm _ _
  omega

/-- `U256::invmod256` from `u256.rs`: Hensel-lifted Newton iteration with
`Wrapping` u64/u128 arithmetic, finished with two truncated `U256` ops. -/
def invmod256 (a : U256) : Option U256 :=
  if a.is_even then none
  else
    let c := a.c0
    let r0 := (3 * c) % 2 ^ 64 ^^^ 2
    let r1 := (r0 * ((2 + 2 ^ 64 - c * r0 % 2 ^ 64) % 2 ^ 64)) % 2 ^ 64
    let r2 := (r1 * ((2 + 2 ^ 64 - c * r1 % 2 ^ 64) % 2 ^ 64)) % 2 ^ 64
    let r3 := (r2 * ((2 + 2 ^ 64 - c * r2 % 2 ^ 64) % 2 ^ 64)) % 2 ^ 64
    let r4 := (r3 * ((2 + 2 ^ 64 - c * r3 % 2 ^ 64) % 2 ^ 64)) % 2 ^ 64
    let r5 := (r4 * ((2 + 2 ^ 128 - a.as_u128 * r4 % 2 ^ 128) % 2 ^ 128)) % 2 ^ 128
    let ru := from_limbs (r5 % 2 ^ 64) (r5 / 2 ^ 64 % 2 ^ 64) 0 0
    some (mul ru (sub (ofU64 2) (mul ru a)))

theorem invmod256_inverts {a : U256} (ha : a.wf) :
    (invmod256 a = none ↔ a.val % 2 = 0) ∧
    ∀ e, invmod256 a = some e → mul a e = ONE := by
  have hc0 : a.c0 % 2 = a.val % 2 := by
    have : a.val = a.c0 + 2 ^ 64 * a.c1 + 2 ^ 128 * a.c2 + 2 ^ 192 * a.c3 := rfl
    omega
  have heven : (a.is_even = true) ↔ a.val % 2 = 0 := by
    unfold is_even
    rw [Nat.and_one_is_mod]
    simp only [beq_iff_eq]
    omega
  refine ⟨⟨?_, ?_⟩, ?_⟩
  · intro h
    unfold invmod256 at h
    split_ifs at h with hev
    exact heven.mp hev
  · intro h
    unfold invmod256
    rw [if_pos (heven.mpr h)]
  · intro e he
    unfold invmod256 at he
    split_ifs at he with hev
    simp only [Option.some.injEq] at he
    subst he
    -- abbreviations for the iteration values
    set c := a.c0 with hc
    set r0 := (3 * c) % 2 ^ 64 ^^^ 2 with hr0
    set r1 := (r0 * ((2 + 2 ^ 64 - c * r0 % 2 ^ 64) % 2 ^ 64)) % 2 ^ 64 with hr1
    set r2 := (r1 * ((2 + 2 ^ 64 - c * r1 % 2 ^ 64) % 2 ^ 64)) % 2 ^ 64 with hr2
    set r3 := (r2 * ((2 + 2 ^ 64 - c * r2 % 2 ^ 64) % 2 ^ 64)) % 2 ^ 64 with hr3
    set r4 := (r3 * ((2 + 2 ^ 64 - c * r3 % 2 ^ 64) % 2 ^ 64)) % 2 ^ 64 with hr4
    set r5 := (r4 * ((2 + 2 ^ 128 - a.as_u128 * r4 % 2 ^ 128) % 2 ^ 128)) % 2 ^ 128 with hr5
    set ru := from_limbs (r5 % 2 ^ 64) (r5 / 2 ^ 64 % 2 ^ 64) 0 0 with hru
    have hodd : c % 2 = 1 := by
      rw [heven] at hev
      omega
    have pow_cast : ∀ n : ℕ, (((2 ^ n : ℕ) : ℤ)) = (2:ℤ) ^ n := by
      intro n; push_cast; rfl
    have h4 : (2:ℤ) ^ 4 ∣ (c:ℤ) * r0 - 1 := inv_seed_spec hodd
    have h8 : (2:ℤ) ^ 8 ∣ (c:ℤ) * r1 - 1 := by
      have := hensel_step (c := c) (r := r0) (M := 2 ^ 64) 4
        (by simp only [pow_cast]; exact pow_dvd_pow 2 (by norm_num)) (by norm_num) h4
      rw [hr1]
      exact_mod_cast this
    have h16 : (2:ℤ) ^ 16 ∣ (c:ℤ) * r2 - 1 := by
      have := hensel_step (c := c) (r := r1) (M := 2 ^ 64) 8
        (by simp only [pow_cast]; exact pow_dvd_pow 2 (by norm_num)) (by norm_num) h8
      rw [hr2]
      exact_mod_cast this
    have h32 : (2:ℤ) ^ 32 ∣ (c:ℤ) * r3 - 1 := by
      have := hensel_step (c := c) (r := r2) (M := 2 ^ 64) 16
        (by simp only [pow_cast]; exact pow_dvd_pow 2 (by norm_num)) (by norm_num) h16
      rw [hr3]
      exact_mod_cast this
    have h64 : (2:ℤ) ^ 64 ∣ (c:ℤ) * r4 - 1 := by
      have := hensel_step (c := c) (r := r3) (M := 2 ^ 64) 32
        (by simp only [pow_cast]; exact pow_dvd_pow 2 (by norm_num)) (by norm_num) h32
      rw [hr4]
      exact_mod_cast this
    have hu128 : a.as_u128 = c + 2 ^ 64 * a.c1 := as_u128_eq ha
    have h64u : (2:ℤ) ^ 64 ∣ (a.as_u128 : ℤ) * r4 - 1 := by
      have e : (a.as_u128 : ℤ) * r4 - 1 =
          ((c:ℤ) * r4 - 1) + 2 ^ 64 * ((a.c1 : ℤ) * r4) := by
        rw [hu128]; push_cast; ring
      rw [e]
      exact dvd_add h64 (Dvd.intro _ rfl)
    have h128 : (2:ℤ) ^ 128 ∣ (a.as_u128 : ℤ) * r5 - 1 := by
      have := hensel_step (c := a.as_u128) (r := r4) (M := 2 ^ 128) 64
        (by simp only [pow_cast]; exact pow_dvd_pow 2 (by norm_num)) (by norm_num) h64u
      rw [hr5]
      exact_mod_cast this
    have hA128 : (2:ℤ) ^ 128 ∣ (a.val : ℤ) * r5 - 1 := by
      have eA : a.val = a.as_u128 + 2 ^ 128 * (a.c2 + 2 ^ 64 * a.c3) := by
        rw [hu128]
        have : a.val = a.c0 + 2 ^ 64 * a.c1 + 2 ^ 128 * a.c2 + 2 ^ 192 * a.c3 := rfl
        omega
      have e : (a.val : ℤ) * r5 - 1 =
          ((a.as_u128 : ℤ) * r5 - 1) + 2 ^ 128 * (((a.c2 : ℤ) + 2 ^ 64 * a.c3) * r5) := by
        rw [eA]; push_cast; ring
      rw [e]
      exact dvd_add h128 (Dvd.intro _ rfl)
    -- the final truncated-U256 step
    have hr5lt : r5 < 2 ^ 128 := by rw [hr5]; exact Nat.mod_lt _ (by norm_num)
    have hruwf : ru.wf := by
      rw [hru]
      unfold wf from_limbs
      refine ⟨?_, ?_, ?_, ?_⟩ <;> simp <;> omega
    have hruval : ru.val = r5 := by
      rw [hru]
      unfold val from_limbs
      simp only
      omega
    have h2wf : (ofU64 2).wf := by unfold ofU64 from_limbs wf; norm_num
    have h2val : (ofU64 2).val = 2 := by unfold ofU64 from_limbs val; norm_num
    have hmulval : (mul ru a).val = r5 * a.val % 2 ^ 256 := by
      rw [mul_val, hruval]
    have htval : (sub (ofU64 2) (mul ru a)).val
        = (2 + 2 ^ 256 - a.val * r5 % 2 ^ 256) % 2 ^ 256 := by
      rw [sub_val h2wf (mul_wf _ _), h2val, hmulval]
      have hcomm : r5 * a.val = a.val * r5 := Nat.mul_comm _ _
      omega
    have heval : (mul ru (sub (ofU64 2) (mul ru a))).val
        = (r5 * ((2 + 2 ^ 256 - a.val * r5 % 2 ^ 256) % 2 ^ 256)) % 2 ^ 256 := by
      rw [mul_val, hruval, htval]
    have h256 : (2:ℤ) ^ 256 ∣ (a.val : ℤ) * ((mul ru (sub (ofU64 2) (mul ru a))).val : ℤ) - 1 := by
      have := hensel_step (c := a.val) (r := r5) (M := 2 ^ 256) 128
        (by simp only [pow_cast]; exact pow_dvd_pow 2 (by norm_num)) (by norm_num) hA128
      rw [heval]
      exact_mod_cast this
    have hfin : (mul a (mul ru (sub (ofU64 2) (mul ru a)))).val = 1 := by
      rw [mul_val]
      omega
    exact eq_of_val_eq (mul_wf _ _) (by unfold ONE from_limbs wf; norm_num) (by
      rw [hfin]; rfl)

/-- `divrem` returns `none` exactly on a zero divisor. -/
theorem divrem_none_iff (a b : U256) : divrem a b = none ↔ b = ZERO := by
  constructor
  · intro h
    unfold divrem at h
    split_ifs at h with h3 h2 h1 h0
    have : b.c0 = 0 ∧ b.c1 = 0 ∧ b.c2 = 0 ∧ b.c3 = 0 := by omega
    obtain ⟨e0, e1, e2, e3⟩ := this
    obtain ⟨x0, x1, x2, x3⟩ := b
    simp only at e0 e1 e2 e3
    simp [ZERO, from_limbs, e0, e1, e2, e3]
  · intro h
    subst h
    rfl

/-- `DivAssign<&U256>` from `u256.rs`: `self.divrem(rhs).unwrap().0`; the
`unwrap` panic on a zero divisor is modelled as `none`. -/
def div (a b : U256) : Option U256 := (divrem a b).map Prod.fst

/-- `RemAssign<&U256>` from `u256.rs`: `self.divrem(rhs).unwrap().1`; the
`unwrap` panic on a zero divisor is modelled as `none`. -/
def rem (a b : U256) : Option U256 := (divrem a b).map Prod.snd

/-- `Self::from(10_u64)`. -/
def ten : U256 := ofU64 10

theorem divrem_ten (a : U256) :
    divrem a ten = some (ofNat (a.val / 10), from_limbs (a.val % 10) 0 0 0) := by
  have h10 : (10 : Nat) % 2 ^ 64 = 10 := by norm_num
  unfold divrem ten ofU64
  rw [h10]
  simp only [from_limbs]
  norm_num [divrem_nby1, limbsVal_numerator, natLimbs, List.range_succ, List.range_zero,
    List.map_cons, List.map_nil, List.getD, ofNat]

/-- The quotient by ten, after the infallible unwrap. -/
theorem div_ten (a : U256) : (div a ten).getD ZERO = ofNat (a.val / 10) := by
  unfold div
  rw [divrem_ten]
  rfl

theorem rem_ten (a : U256) :
    (rem a ten).getD ZERO = from_limbs (a.val % 10) 0 0 0 := by
  unfold rem
  rw [divrem_ten]
  rfl

theorem div_ten_wf (a : U256) : ((div a ten).getD ZERO).wf := by
  rw [div_ten]
  exact ofNat_wf _

theorem div_ten_val {a : U256} (ha : a.wf) :
    ((div a ten).getD ZERO).val = a.val / 10 := by
  have hA := val_lt_of_wf ha
  rw [div_ten, ofNat_val]
  have : a.val / 10 ≤ a.val := Nat.div_le_self _ _
  omega

theorem div_ten_val_le (a : U256) : ((div a ten).getD ZERO).val ≤ a.val / 10 := by
  rw [div_ten, ofNat_val]
  exact Nat.le_of_lt_succ (Nat.lt_succ_of_le (Nat.mod_le _ _))

theorem gtb_zero {x : U256} (h : gtb x ZERO) : 0 < x.val := by
  unfold gtb cmp ZERO from_limbs at h
  unfold val
  simp only at h
  split_ifs at h <;> omega

/-- The decimal digit character for `d < 10`, as produced by
`digit.to_string()` in `to_decimal_str`. -/
def digitChar (d : Nat) : Char := Char.ofNat (48 + d)

/-- The digit-accumulating loop of `to_decimal_str` (`u256.rs`): while
`copy > 0`, push the character of `(copy % 10).c0` and divide `copy` by 10.
The `%` and `/` operators unwrap `divrem`, which cannot fail since the
divisor is ten; the unwrap is written with `getD`. -/
def to_dec_loop (copy : U256) : List Char :=
  if gtb copy ZERO then
    digitChar ((rem copy ten).getD ZERO).c0 :: to_dec_loop ((div copy ten).getD ZERO)
  else []
termination_by copy.val
decreasing_by
  have h1 := gtb_zero (by assumption)
  have h2 := div_ten_val_le copy
  have h3 : copy.val / 10 < copy.val := Nat.div_lt_self h1 (by norm_num)
  exact lt_of_le_of_lt h2 h3

/-- `U256::to_decimal_str` from `u256.rs`: zero prints as "0"; otherwise
digits are pushed least-significant first and the string is reversed. -/
def to_decimal_str (x : U256) : List Char :=
  if x = ZERO then ['0'] else (to_dec_loop x).reverse

/-- `ParseError` from `u256.rs`.  The `InnerError` payload
(`core::num::ParseIntError`) is not modelled. -/
inductive ParseError where
  | Empty : ParseError
  | Overflow : ParseError
  | InnerError : ParseError
deriving DecidableEq, Repr

instance {e a : Type} [DecidableEq e] [DecidableEq a] : DecidableEq (Except e a)
  | .ok x, .ok y =>
    if h : x = y then .isTrue (congrArg Except.ok h)
    else .isFalse (fun hh => h (Except.ok.inj hh))
  | .error u, .error v =>
    if h : u = v then .isTrue (congrArg Except.error h)
    else .isFalse (fun hh => h (Except.error.inj hh))
  | .ok _, .error _ => .isFalse (fun hh => Except.noConfusion hh)
  | .error _, .ok _ => .isFalse (fun hh => Except.noConfusion hh)

/-- A single-character `u64::from_str_radix(&s[i..=i], 10)` call from
`from_decimal_str`: a decimal digit or an inner parse error. -/
def parse_digit (ch : Char) : Except ParseError Nat :=
  if 48 ≤ ch.toNat ∧ ch.toNat ≤ 57 then .ok (ch.toNat - 48) else .error .InnerError

/-- The `max10` constant of `from_decimal_str`: ceil(2^256 / 10). -/
def max10 : U256 :=
  from_limbs 0x999999999999999a 0x9999999999999999 0x9999999999999999 0x1999999999999999

/-- The parsing loop of `from_decimal_str` (`u256.rs` lines 98–109):
check `result > max10`, multiply by ten, parse the digit, check the wrapped
addition, accumulate. -/
def from_dec_loop (acc : U256) : List Char → Except ParseError U256
  | [] => .ok acc
  | ch :: rest =>
    if gtb acc max10 then .error .Overflow
    else
      let acc10 := mul acc ten
      match parse_digit ch with
      | .error e => .error e
      | .ok d =>
        let sum := add acc10 (ofU64 d)
        if ltb sum acc10 then .error .Overflow
        else from_dec_loop sum rest

/-- `U256::from_decimal_str` from `u256.rs`. -/
def from_decimal_str (s : List Char) : Except ParseError U256 :=
  if s.isEmpty then .error .Empty else from_dec_loop ZERO s

/-- The numeric value of a string of decimal digits (most significant
first). -/
def dec_val (s : List Char) : Nat :=
  s.foldl (fun n ch => 10 * n + (ch.toNat - 48)) 0

theorem zero_wf : ZERO.wf := by
  unfold ZERO from_limbs wf
  norm_num

theorem val_zero : ZERO.val = 0 := rfl

theorem max10_wf : max10.wf := by
  unfold max10 from_limbs wf
  norm_num

theorem max10_val : max10.val = 11579208923731619542357098500868790785326998466564056403945758400791312963994 := by
  unfold max10 from_limbs val
  norm_num

theorem ten_val : ten.val = 10 := by
  unfold ten ofU64 from_limbs val
  norm_num

theorem to_dec_loop_eq : ∀ (n : Nat) (x : U256), x.wf → x.val = n →
    to_dec_loop x = (Nat.digits 10 n).map digitChar := by
  intro n
  induction n using Nat.strong_induction_on with
  | _ n ih =>
    intro x hwf hval
    rw [to_dec_loop]
    by_cases h : gtb x ZERO
    · rw [if_pos h]
      have hpos : 0 < x.val := gtb_zero h
      have hc0 : ((rem x ten).getD ZERO).c0 = x.val % 10 := by
        rw [rem_ten]
        rfl
      rw [hc0, ih (x.val / 10) (by omega) _ (div_ten_wf x) (div_ten_val hwf)]
      subst hval
      rw [Nat.digits_def' (by norm_num : (1:ℕ) < 10) hpos]
      simp
    · rw [if_neg h]
      have h0 : x.val = 0 := by
        by_contra hne
        exact h ((gtb_iff_val hwf zero_wf).mpr (by rw [val_zero]; omega))
      rw [← hval, h0]
      simp

theorem foldl_step_ge (L : List Char) (n : Nat) :
    n ≤ L.foldl (fun m ch => 10 * m + (ch.toNat - 48)) n := by
  induction L generalizing n with
  | nil => simp
  | cons ch rest ih =>
    rw [List.foldl_cons]
    calc n ≤ 10 * n + (ch.toNat - 48) := by omega
      _ ≤ _ := ih _

theorem from_dec_loop_ok (L : List Char) : ∀ acc : U256, acc.wf →
    (∀ ch ∈ L, 48 ≤ ch.toNat ∧ ch.toNat ≤ 57) →
    L.foldl (fun m ch => 10 * m + (ch.toNat - 48)) acc.val < 2 ^ 256 →
    from_dec_loop acc L =
      .ok (ofNat (L.foldl (fun m ch => 10 * m + (ch.toNat - 48)) acc.val)) := by
  induction L with
  | nil =>
    intro acc hwf _ _
    simp [from_dec_loop, ofNat_val_self hwf]
  | cons ch rest ih =>
    intro acc hwf hdig hbound
    have hch := hdig ch (List.mem_cons_self _ _)
    have hge : 10 * acc.val + (ch.toNat - 48) ≤
        (ch :: rest).foldl (fun m ch => 10 * m + (ch.toNat - 48)) acc.val := by
      rw [List.foldl_cons]
      exact foldl_step_ge rest _
    rw [List.foldl_cons] at hbound
    have hacc10 : 10 * acc.val + (ch.toNat - 48) < 2 ^ 256 :=
      lt_of_le_of_lt (foldl_step_ge rest _) hbound
    have hmax : ¬ gtb acc max10 := by
      rw [gtb_iff_val hwf max10_wf, max10_val]
      omega
    have hmv : (mul acc ten).val = 10 * acc.val := by
      rw [mul_val, ten_val]
      have : acc.val * 10 = 10 * acc.val := Nat.mul_comm _ _
      omega
    have hd64 : (ofU64 (ch.toNat - 48)).val = ch.toNat - 48 := by
      unfold ofU64 from_limbs val
      simp only
      omega
    have hsv : (add (mul acc ten) (ofU64 (ch.toNat - 48))).val
        = 10 * acc.val + (ch.toNat - 48) := by
      rw [add_val, hmv, hd64]
      omega
    have hlt : ¬ ltb (add (mul acc ten) (ofU64 (ch.toNat - 48))) (mul acc ten) := by
      rw [ltb_iff_val (add_wf _ _) (mul_wf _ _), hsv, hmv]
      omega
    simp only [from_dec_loop, if_neg hmax, parse_digit,
      if_pos (show 48 ≤ ch.toNat ∧ ch.toNat ≤ 57 from hch), if_neg hlt]
    rw [ih _ (add_wf _ _) (fun c hc => hdig c (List.mem_cons_of_mem _ hc)) (by rw [hsv]; exact hbound)]
    rw [hsv, List.foldl_cons]

theorem digitChar_toNat {d : Nat} (h : d < 10) : (digitChar d).toNat = 48 + d := by
  have key : ∀ e, e < 10 → (digitChar e).toNat = 48 + e := by decide
  exact key d h

theorem foldl_rev_digits (ds : List Nat) (h : ∀ d ∈ ds, d < 10) (a : Nat) :
    ((ds.map digitChar).reverse).foldl (fun m ch => 10 * m + (ch.toNat - 48)) a
      = a * 10 ^ ds.length + Nat.ofDigits 10 ds := by
  induction ds generalizing a with
  | nil => simp
  | cons d ds ih =>
    have hd := h d (List.mem_cons_self _ _)
    simp only [List.map_cons, List.reverse_cons, List.foldl_append, List.foldl_cons,
      List.foldl_nil, List.length_cons]
    rw [ih (fun e he => h e (List.mem_cons_of_mem _ he)) a]
    rw [digitChar_toNat hd, Nat.ofDigits_cons]
    have hpow : a * 10 ^ (ds.length + 1) = 10 * (a * 10 ^ ds.length) := by ring
    omega

theorem decimal_round_trip {x : U256} (h : x.wf) :
    from_decimal_str (to_decimal_str x) = .ok x := by
  by_cases hz : x = ZERO
  · subst hz
    rfl
  · rw [to_decimal_str, if_neg hz]
    have hA0 : x.val ≠ 0 := by
      intro h0
      exact hz (eq_of_val_eq h zero_wf (h0.trans val_zero.symm))
    rw [to_dec_loop_eq x.val x h rfl]
    have hdlt : ∀ d ∈ Nat.digits 10 x.val, d < 10 :=
      fun d hd => Nat.digits_lt_base (by norm_num) hd
    have hne : ((Nat.digits 10 x.val).map digitChar).reverse ≠ [] := by
      simp [Nat.digits_ne_nil_iff_ne_zero, hA0]
    rw [from_decimal_str, if_neg (by simpa [List.isEmpty_iff] using hne)]
    have hdig : ∀ ch ∈ ((Nat.digits 10 x.val).map digitChar).reverse,
        48 ≤ ch.toNat ∧ ch.toNat ≤ 57 := by
      intro ch hc
      rw [List.mem_reverse] at hc
      obtain ⟨d, hd, rfl⟩ := List.mem_map.mp hc
      rw [digitChar_toNat (hdlt d hd)]
      have := hdlt d hd
      omega
    have hfold : (((Nat.digits 10 x.val).map digitChar).reverse).foldl
        (fun m ch => 10 * m + (ch.toNat - 48)) ZERO.val = x.val := by
      rw [val_zero, foldl_rev_digits _ hdlt 0, Nat.ofDigits_digits]
      omega
    rw [from_dec_loop_ok _ ZERO zero_wf hdig (by rw [hfold]; exact val_lt_of_wf h)]
    rw [hfold, ofNat_val_self h]

/-- The value of one hex digit as accepted by `hex::decode` (0-9, a-f, A-F),
`none` for any other character. -/
def hexVal (c : Char) : Option Nat :=
  if 48 ≤ c.toNat ∧ c.toNat ≤ 57 then some (c.toNat - 48)
  else if 97 ≤ c.toNat ∧ c.toNat ≤ 102 then some (c.toNat - 87)
  else if 65 ≤ c.toNat ∧ c.toNat ≤ 70 then some (c.toNat - 55)
  else none

/-- `hex::decode`: pairs of hex digits to bytes; odd length or a non-hex
character is an error. -/
def hexDecode : List Char → Option (List Nat)
  | [] => some []
  | [_] => none
  | a :: b :: rest =>
    match hexVal a, hexVal b, hexDecode rest with
    | some x, some y, some bs => some ((16 * x + y) :: bs)
    | _, _, _ => none

/-- `s.trim_start_matches("0x")`: repeatedly strip a leading `0x`. -/
def strip0x : List Char → List Char
  | '0' :: 'x' :: rest => strip0x rest
  | s => s

/-- The `format!` left-padding of `from_hex_str`: pad with zeros on the
left to 64 characters. -/
def pad64 (s : List Char) : List Char := List.replicate (64 - s.length) '0' ++ s

/-- One big-endian limb of `from_bytes_be`: `u64::from_be_bytes` of eight
bytes starting at `off`. -/
def beLimb (b : List Nat) (off : Nat) : Nat :=
  b.getD off 0 * 2 ^ 56 + b.getD (off + 1) 0 * 2 ^ 48 + b.getD (off + 2) 0 * 2 ^ 40 +
    b.getD (off + 3) 0 * 2 ^ 32 + b.getD (off + 4) 0 * 2 ^ 24 + b.getD (off + 5) 0 * 2 ^ 16 +
    b.getD (off + 6) 0 * 2 ^ 8 + b.getD (off + 7) 0

/-- `U256::from_bytes_be` from `u256.rs`. -/
def from_bytes_be (b : List Nat) : U256 :=
  from_limbs (beLimb b 24) (beLimb b 16) (beLimb b 8) (beLimb b 0)

/-- `U256::from_hex_str` from `u256.rs`: strip `0x`, pad to 64 hex chars,
`hex::decode(..).unwrap()` — the unwrap panic on a decode error is modelled
as `none` — then `from_bytes_be` of the first 32 bytes (slicing fewer than
32 bytes would also panic; it cannot happen after padding). -/
def from_hex_str (s : List Char) : Option U256 :=
  match hexDecode (pad64 (strip0x s)) with
  | none => none
  | some bytes =>
    if 32 ≤ bytes.length then some (from_bytes_be (bytes.take 32)) else none

theorem hexDecode_none : ∀ (l : List Char) (c : Char), c ∈ l → hexVal c = none →
    hexDecode l = none
  | [], c, hc, _ => absurd hc (List.not_mem_nil c)
  | [_], _, _, _ => rfl
  | a :: b :: rest, c, hc, hv => by
    have hsplit : c = a ∨ c = b ∨ c ∈ rest := by
      rcases List.mem_cons.mp hc with h | h2
      · exact Or.inl h
      · rcases List.mem_cons.mp h2 with h | h
        · exact Or.inr (Or.inl h)
        · exact Or.inr (Or.inr h)
    rcases hsplit with h | h | h
    · subst h
      simp only [hexDecode, hv]
    · subst h
      cases ha : hexVal a <;> simp only [hexDecode, ha, hv]
    · have hr := hexDecode_none rest c h hv
      cases ha : hexVal a <;> cases hb : hexVal b <;>
        simp only [hexDecode, ha, hb, hr]

theorem from_hex_str_invalid (s : List Char) (c : Char) (hc : c ∈ strip0x s)
    (hv : hexVal c = none) : from_hex_str s = none := by
  have hmem : c ∈ pad64 (strip0x s) := List.mem_append_right _ hc
  unfold from_hex_str
  rw [hexDecode_none _ c hmem hv]

end U256

/-!
The elliptic-curve layer.  `FieldElement` (the prime field of the
`primefield` crate) and the `Affine` point type (`curve.rs`) are not among
the provided sources.  Following the spec they are modelled over an
arbitrary field with decidable equality (the spec's Fp is one such field);
the Jacobian formulas of `jacobian.rs` are translated verbatim.
-/

section Curve

variable {F : Type} [Field F] [DecidableEq F]

/-- Modelled from the spec: `FieldElement::inv` — `primefield` is missing
from the sources; per the spec, `None` exactly for zero. -/
def finv (x : F) : Option F := if x = 0 then none else some x⁻¹

/-- Modelled from the spec: `FieldElement::square`. -/
def fsquare (x : F) : F := x * x

/-- Modelled from the spec: `FieldElement::double`. -/
def fdouble (x : F) : F := x + x

/-- Modelled from the spec: `FieldElement::triple`. -/
def ftriple (x : F) : F := x + x + x

/-- `Affine` from `curve.rs` (spec §3): `Zero` or `Point{x, y}`. -/
inductive Affine (F : Type) where
  | Zero : Affine F
  | Point : F → F → Affine F
deriving DecidableEq

/-- Modelled from the spec: `Affine::on_curve` — `Zero` is trivially on
curve, a point satisfies y² = x³ + α·x + β. -/
def Affine.on_curve (alpha beta : F) : Affine F → Prop
  | .Zero => True
  | .Point x y => y * y = x * x * x + alpha * x + beta

instance (alpha beta : F) (P : Affine F) : Decidable (P.on_curve alpha beta) :=
  match P with
  | .Zero => Decidable.isTrue trivial
  | .Point _ _ => inferInstanceAs (Decidable (_ = _))

/-- `Jacobian` from `jacobian.rs`: the affine point (x/z², y/z³) when
z ≠ 0, the neutral element when z = 0. -/
structure Jacobian (F : Type) where
  x : F
  y : F
  z : F
deriving DecidableEq

namespace Jacobian

/-- `Jacobian::ZERO`. -/
def ZERO : Jacobian F := ⟨1, 1, 0⟩

/-- `From<&Affine> for Jacobian`. -/
def fromAffine : Affine F → Jacobian F
  | .Zero => ZERO
  | .Point x y => ⟨x, y, 1⟩

/-- `From<&Jacobian> for Affine` (`jacobian.rs` lines 115–129). -/
def toAffine (p : Jacobian F) : Affine F :=
  match finv p.z with
  | none => .Zero
  | some zi =>
    let zi2 := fsquare zi
    let zi3 := zi * zi2
    .Point (p.x * zi2) (p.y * zi3)

/-- `PartialEq for Jacobian` (`jacobian.rs` lines 72–77): compare the
represented affine points. -/
def jacEq (p q : Jacobian F) : Prop := toAffine p = toAffine q

instance (p q : Jacobian F) : Decidable (jacEq p q) := by
  unfold jacEq
  infer_instance

/-- `Jacobian::double_assign` (`jacobian.rs` lines 31–47, dbl-2007-bl; the
source drops the `ALPHA *` factor on `zz.square()`, the curve's α being 1). -/
def double (p : Jacobian F) : Jacobian F :=
  if p.y = 0 then ZERO
  else
    let xx := fsquare p.x
    let yy := fsquare p.y
    let yyyy := fsquare yy
    let zz := fsquare p.z
    let s := fdouble (fsquare (p.x + yy) - xx - yyyy)
    let m := ftriple xx + fsquare zz
    let z3 := fsquare (p.y + p.z) - yy - zz
    let x3 := fsquare m - fdouble s
    let y3 := m * (s - x3) - fdouble (fdouble (fdouble yyyy))
    ⟨x3, y3, z3⟩

/-- `AddAssign<&Jacobian>` (`jacobian.rs` lines 141–179, add-2007-bl). -/
def add (p q : Jacobian F) : Jacobian F :=
  if q.z = 0 then p
  else if p.z = 0 then q
  else
    let z1z1 := fsquare p.z
    let z2z2 := fsquare q.z
    let u1 := p.x * z2z2
    let u2 := q.x * z1z1
    let s1 := p.y * q.z * z2z2
    let s2 := q.y * p.z * z1z1
    if u1 = u2 then
      if s1 = s2 then double p else ZERO
    else
      let h := u2 - u1
      let i := fsquare (fdouble h)
      let j := h * i
      let r := fdouble (s2 - s1)
      let v := u1 * i
      let x3 := fsquare r - j - fdouble v
      let y3 := r * (v - x3) - fdouble (s1 * j)
      let z3 := (fsquare (p.z + q.z) - z1z1 - z2z2) * h
      ⟨x3, y3, z3⟩

/-- `AddAssign<&Affine>` (`jacobian.rs` lines 181–220, madd-2007-bl).  Note
that the second degeneracy check of the source compares `self.x` with `s2`. -/
def addAffine (p : Jacobian F) : Affine F → Jacobian F
  | .Zero => p
  | .Point x y =>
    if p.z = 0 then ⟨x, y, 1⟩
    else
      let z1z1 := fsquare p.z
      let u2 := x * z1z1
      let s2 := y * p.z * z1z1
      if p.x = u2 then
        if p.x = s2 then double p else ZERO
      else
        let h := u2 - p.x
        let hh := fsquare h
        let i := fdouble (fdouble hh)
        let j := h * i
        let r := fdouble (s2 - p.y)
        let v := p.x * i
        let x3 := fsquare r - j - fdouble v
        let y3 := r * (v - x3) - fdouble (p.y * j)
        let z3 := fsquare (p.z + h) - z1z1 - hh
        ⟨x3, y3, z3⟩

/-- `Jacobian::mul` (`jacobian.rs` lines 60–69): accumulator `from(p)`,
then for `i` in `(0..scalar.msb()).rev()`: double, and mixed-add `p` when
bit `i` is set.  `msb()` underflows on a zero scalar (modelled `none`). -/
def mul (p : Affine F) (scalar : U256) : Option (Jacobian F) :=
  match U256.msb scalar with
  | none => none
  | some m =>
    some ((List.range m).reverse.foldl
      (fun r i =>
        let rd := double r
        if U256.bit scalar i then addAffine rd p else rd)
      (fromAffine p))

end Jacobian

theorem Jacobian.toAffine_zero_z {p : Jacobian F} (h : p.z = 0) : toAffine p = .Zero := by
  simp [Jacobian.toAffine, finv, h]

theorem Jacobian.toAffine_flip (ax ay az : F) :
    Jacobian.toAffine (⟨ax, -ay, -az⟩ : Jacobian F) = Jacobian.toAffine ⟨ax, ay, az⟩ := by
  by_cases hz : az = 0
  · simp [Jacobian.toAffine, finv, hz]
  · have hz' : -az ≠ 0 := neg_ne_zero.mpr hz
    simp only [Jacobian.toAffine, finv, hz, hz', if_neg, if_false, fsquare, inv_neg]
    rw [Affine.Point.injEq]
    constructor
    · ring
    · ring

theorem Jacobian.jacEq_flip {ax ay az bx by' bz : F} (hx : bx = ax) (hy : by' = -ay) (hz : bz = -az) :
    Jacobian.jacEq (⟨ax, ay, az⟩ : Jacobian F) ⟨bx, by', bz⟩ := by
  subst hx hy hz
  exact (Jacobian.toAffine_flip _ _ _).symm

theorem Jacobian.double_resp (p q : Jacobian F) (hp : p.z ≠ 0) (hq : q.z ≠ 0)
    (hx : p.x * fsquare q.z = q.x * fsquare p.z)
    (hy : p.y * q.z * fsquare q.z = q.y * p.z * fsquare p.z) :
    Jacobian.jacEq (Jacobian.double p) (Jacobian.double q) := by
  obtain ⟨px, py, pz⟩ := p
  obtain ⟨qx, qy, qz⟩ := q
  simp only [fsquare] at hx hy
  simp only at hp hq hx hy
  by_cases hy0 : py = 0
  · have hqy0 : qy = 0 := by
      subst hy0
      simp only [zero_mul] at hy
      rcases mul_eq_zero.mp hy.symm with h | h
      · rcases mul_eq_zero.mp h with h1 | h1
        · exact h1
        · exact absurd h1 hp
      · exact absurd (mul_self_eq_zero.mp h) hp
    simp only [Jacobian.double, if_pos hy0, if_pos hqy0]
    exact rfl
  · have hqy0 : qy ≠ 0 := by
      intro h0
      apply hy0
      rw [h0] at hy
      rw [zero_mul, zero_mul] at hy
      rcases mul_eq_zero.mp hy with h | h
      · rcases mul_eq_zero.mp h with h1 | h1
        · exact h1
        · exact absurd h1 hq
      · exact absurd (mul_self_eq_zero.mp h) hq
    have hqx : qx = px * (qz * qz) / (pz * pz) := by
      rw [eq_div_iff (mul_ne_zero hp hp)]
      linear_combination -hx
    have hqy : qy = py * qz * (qz * qz) / (pz * (pz * pz)) := by
      rw [eq_div_iff (mul_ne_zero hp (mul_ne_zero hp hp))]
      linear_combination -hy
    have htne : qz / pz ≠ 0 := div_ne_zero hq hp
    have hqz : qz = pz * (qz / pz) := by field_simp
    have hqx2 : qx = px * (qz / pz) ^ 2 := by
      rw [hqx]
      field_simp
      ring
    have hqy2 : qy = py * (qz / pz) ^ 3 := by
      rw [hqy]
      field_simp
      ring
    generalize ht : qz / pz = t at htne hqz hqx2 hqy2
    simp only [Jacobian.double, if_neg hy0, if_neg hqy0, fsquare, fdouble, ftriple]
    simp only [Jacobian.jacEq, Jacobian.toAffine, finv, fsquare]
    by_cases h2 : (2 : F) = 0
    · have hzp : (py + pz) * (py + pz) - py * py - pz * pz = 0 := by
        linear_combination (py * pz) * h2
      have hzq : (qy + qz) * (qy + qz) - qy * qy - qz * qz = 0 := by
        linear_combination (qy * qz) * h2
      simp [hzp, hzq]
    · have hzp0 : (py + pz) * (py + pz) - py * py - pz * pz ≠ 0 := by
        have e : (py + pz) * (py + pz) - py * py - pz * pz = 2 * py * pz := by ring
        rw [e]
        exact mul_ne_zero (mul_ne_zero h2 hy0) hp
      have hzq0 : (qy + qz) * (qy + qz) - qy * qy - qz * qz ≠ 0 := by
        have e : (qy + qz) * (qy + qz) - qy * qy - qz * qz = 2 * qy * qz := by ring
        rw [e]
        exact mul_ne_zero (mul_ne_zero h2 hqy0) hq
      rw [if_neg hzp0, if_neg hzq0]
      simp only
      rw [Affine.Point.injEq]
      rw [hqx2, hqy2, hqz]
      have ezp : (py + pz) * (py + pz) - py * py - pz * pz = 2 * py * pz := by ring
      have ezq : (py * t ^ 3 + pz * t) * (py * t ^ 3 + pz * t) - py * t ^ 3 * (py * t ^ 3)
          - pz * t * (pz * t) = 2 * py * pz * t ^ 4 := by ring
      rw [ezp, ezq]
      have hne1 : (2 : F) * py * pz ≠ 0 := mul_ne_zero (mul_ne_zero h2 hy0) hp
      have hne2 : (2 : F) * py * pz * t ^ 4 ≠ 0 := mul_ne_zero hne1 (pow_ne_zero _ htne)
      constructor
      · field_simp
        ring
      · field_simp
        ring

theorem Jacobian.add_comm_points (p q : Jacobian F) :
    Jacobian.jacEq (Jacobian.add p q) (Jacobian.add q p) := by
  by_cases hq : q.z = 0
  · by_cases hp : p.z = 0
    · simp only [Jacobian.add, if_pos hp, if_pos hq]
      show Jacobian.toAffine p = Jacobian.toAffine q
      rw [Jacobian.toAffine_zero_z hp, Jacobian.toAffine_zero_z hq]
    · simp only [Jacobian.add, if_pos hq, if_neg hp]
      exact rfl
  · by_cases hp : p.z = 0
    · simp only [Jacobian.add, if_pos hp, if_neg hq]
      exact rfl
    · simp only [Jacobian.add, if_neg hq, if_neg hp]
      by_cases hu : p.x * fsquare q.z = q.x * fsquare p.z
      · rw [if_pos hu, if_pos hu.symm]
        by_cases hs : p.y * q.z * fsquare q.z = q.y * p.z * fsquare p.z
        · rw [if_pos hs, if_pos hs.symm]
          exact Jacobian.double_resp p q hp hq hu hs
        · rw [if_neg hs, if_neg (fun h => hs h.symm)]
          exact rfl
      · rw [if_neg hu, if_neg (fun h => hu h.symm)]
        refine Jacobian.jacEq_flip ?_ ?_ ?_ <;>
          simp only [fsquare, fdouble] <;> ring


end Curve

theorem U256.val_eq_zero_iff (b : U256) : b.val = 0 ↔ b = U256.ZERO := by
  obtain ⟨b0, b1, b2, b3⟩ := b
  unfold U256.val U256.ZERO U256.from_limbs
  simp only [U256.mk.injEq]
  omega

instance : Fact (Nat.Prime 5) := ⟨by norm_num⟩

/-!
The claim theorems.
-/

/-- C1: the spec requires `Jacobian::mul(P, 0)` to be the neutral point, but
the code runs `scalar.msb()`, which computes `255 - leading_zeros()` on
`usize`; for the zero scalar `leading_zeros()` is 256 and the subtraction
underflows (a panic in debug builds, modelled as `none`): `mul` never
returns the neutral point on a zero scalar. -/
theorem claim_C1_mul_zero_scalar_panics {F : Type} [Field F] [DecidableEq F] (P : Affine F) :
    Jacobian.mul P U256.ZERO = none := rfl

theorem claim_C1_witness :
    Jacobian.mul (Affine.Point (0 : ZMod 5) 1) U256.ZERO = none :=
  claim_C1_mul_zero_scalar_panics _

/-- C2: with `P = (0, 1)` on y² = x³ + x + 1 over F₅ (the field layer is
modelled parametrically; any field exhibits the bug), `from(P) += P` enters
the `self.x == u2` branch and then tests `self.x == s2` — comparing the
x-coordinate with an y-quantity, where the homogeneous path compares
`s1 == s2` — so the mixed self-add returns the neutral point instead of the
double: `P + P ≠ 2P` under the mixed-affine-plus-self rule. -/
theorem claim_C2_madd_self_add_bug :
    Affine.on_curve (1 : ZMod 5) 1 (Affine.Point 0 1) ∧
    Affine.Point (0 : ZMod 5) 1 ≠ Affine.Zero ∧
    Jacobian.addAffine (Jacobian.fromAffine (Affine.Point (0 : ZMod 5) 1)) (Affine.Point 0 1)
      = Jacobian.ZERO ∧
    ¬ Jacobian.jacEq
        (Jacobian.addAffine (Jacobian.fromAffine (Affine.Point (0 : ZMod 5) 1)) (Affine.Point 0 1))
        (Jacobian.double (Jacobian.fromAffine (Affine.Point (0 : ZMod 5) 1))) := by
  refine ⟨by decide, by decide, by decide, by decide⟩

set_option maxRecDepth 40000 in
/-- C3 counterexample: the decimal string of 2^256 + 4 (whose value is
≥ 2^256) parses successfully, to 4: after its first 77 digits the
accumulator is exactly `max10 = ceil(2^256/10)`, which passes the strict
`result > max10` check, and the wrap of `result *= 10` (to the value 4) is
not caught by the addition check. -/
theorem claim_C3_counterexample :
    2 ^ 256 ≤ U256.dec_val
      "115792089237316195423570985008687907853269984665640564039457584007913129639940".toList ∧
    U256.from_decimal_str
      "115792089237316195423570985008687907853269984665640564039457584007913129639940".toList
      = .ok ⟨4, 0, 0, 0⟩ := by
  constructor
  · decide
  · decide

/-- C3 amended: the SC7 instances hold — the decimal string of 2^256 parses
to `Overflow`, the one of 2^256 − 1 parses successfully (to `MAX`), and the
empty string parses to `Empty` — but not every digit string with value
≥ 2^256 yields `Overflow` (see the counterexample). -/
theorem claim_C3_amended :
    U256.from_decimal_str
      "115792089237316195423570985008687907853269984665640564039457584007913129639936".toList
      = .error .Overflow ∧
    U256.from_decimal_str
      "115792089237316195423570985008687907853269984665640564039457584007913129639935".toList
      = .ok U256.MAX ∧
    U256.from_decimal_str [] = .error .Empty := by
  refine ⟨by decide, by decide, by decide⟩

/-- C4: `divrem(a, b)` is `none` exactly when b = 0, and on success the
quotient and remainder satisfy r < b and q·b + r = a, the latter exactly
over the natural numbers (no wrap). -/
theorem claim_C4_divrem_spec (a b : U256) (ha : a.wf) (hb : b.wf) :
    (U256.divrem a b = none ↔ b = U256.ZERO) ∧
    ∀ q r, U256.divrem a b = some (q, r) →
      r.val < b.val ∧ q.val * b.val + r.val = a.val := by
  refine ⟨U256.divrem_none_iff a b, ?_⟩
  intro q r h
  by_cases hz : b = U256.ZERO
  · rw [(U256.divrem_none_iff a b).mpr hz] at h
    cases h
  · rw [U256.divrem_eq ha hb hz] at h
    have hbpos : 0 < b.val := by
      rcases Nat.eq_zero_or_pos b.val with h0 | h0
      · exact absurd ((U256.val_eq_zero_iff b).mp h0) hz
      · exact h0
    injection h with h
    rw [Prod.mk.injEq] at h
    obtain ⟨hq, hr⟩ := h
    subst hq
    subst hr
    have hA := U256.val_lt_of_wf ha
    rw [U256.ofNat_val_of_lt (lt_of_le_of_lt (Nat.div_le_self _ _) hA),
      U256.ofNat_val_of_lt (lt_of_le_of_lt (Nat.mod_le _ _) hA)]
    refine ⟨Nat.mod_lt _ hbpos, ?_⟩
    rw [Nat.mul_comm]
    exact Nat.div_add_mod a.val b.val

theorem claim_C4_witness :
    (U256.from_limbs 2 0 0 0).val < (U256.from_limbs 7 0 0 0).val ∧
    (U256.from_limbs 14 0 0 0).val * (U256.from_limbs 7 0 0 0).val
      + (U256.from_limbs 2 0 0 0).val = (U256.from_limbs 100 0 0 0).val :=
  (claim_C4_divrem_spec (U256.from_limbs 100 0 0 0) (U256.from_limbs 7 0 0 0)
    (by decide) (by decide)).2 _ _ (by decide)

/-- C5: `invmod256` is `none` exactly on even values, and for odd values the
returned inverse `e` satisfies `a * e = ONE` under the truncated 256-bit
product, i.e. a·e ≡ 1 (mod 2^256). -/
theorem claim_C5_invmod256_spec (a : U256) (ha : a.wf) :
    (U256.invmod256 a = none ↔ a.val % 2 = 0) ∧
    ∀ e, U256.invmod256 a = some e → U256.mul a e = U256.ONE :=
  U256.invmod256_inverts ha

theorem claim_C5_witness :
    U256.mul (U256.from_limbs 3 0 0 0)
      (U256.from_limbs 0xaaaaaaaaaaaaaaab 0xaaaaaaaaaaaaaaaa 0xaaaaaaaaaaaaaaaa
        0xaaaaaaaaaaaaaaaa) = U256.ONE :=
  (claim_C5_invmod256_spec (U256.from_limbs 3 0 0 0) (by decide)).2 _ (by decide)

/-- C6: decimal round trip — `from_decimal_str (to_decimal_str x) = Ok x`
for every value, with zero written as "0" and nonzero values written without
a leading zero. -/
theorem claim_C6_decimal_round_trip (x : U256) (h : x.wf) :
    U256.from_decimal_str (U256.to_decimal_str x) = .ok x ∧
    U256.to_decimal_str U256.ZERO = ['0'] ∧
    (x ≠ U256.ZERO → (U256.to_decimal_str x).head? ≠ some '0') := by
  refine ⟨U256.decimal_round_trip h, rfl, ?_⟩
  intro hz
  have hA0 : x.val ≠ 0 := fun h0 => hz ((U256.val_eq_zero_iff x).mp h0)
  rw [U256.to_decimal_str, if_neg hz, U256.to_dec_loop_eq x.val x h rfl]
  rw [List.head?_reverse]
  have hnil : Nat.digits 10 x.val ≠ [] := Nat.digits_ne_nil_iff_ne_zero.mpr hA0
  have hnil2 : (Nat.digits 10 x.val).map U256.digitChar ≠ [] := by
    simpa using hnil
  rw [List.getLast?_eq_getLast_of_ne_nil hnil2]
  have hlast : ((Nat.digits 10 x.val).map U256.digitChar).getLast hnil2
      = U256.digitChar ((Nat.digits 10 x.val).getLast hnil) := by
    rw [List.getLast_map]
  rw [hlast]
  intro hcontr
  have hd0 : (Nat.digits 10 x.val).getLast hnil ≠ 0 :=
    Nat.getLast_digit_ne_zero 10 hA0
  have hdlt : (Nat.digits 10 x.val).getLast hnil < 10 :=
    Nat.digits_lt_base (by norm_num) (List.getLast_mem hnil)
  have := congrArg Char.toNat (Option.some.inj hcontr)
  rw [U256.digitChar_toNat hdlt] at this
  have h48 : ('0' : Char).toNat = 48 := rfl
  omega

theorem claim_C6_witness :
    U256.from_decimal_str (U256.to_decimal_str (U256.from_limbs 123 0 0 0))
      = .ok (U256.from_limbs 123 0 0 0) ∧
    (U256.to_decimal_str (U256.from_limbs 123 0 0 0)).head? ≠ some '0' :=
  ⟨(claim_C6_decimal_round_trip _ (by decide)).1,
   (claim_C6_decimal_round_trip (U256.from_limbs 123 0 0 0) (by decide)).2.2 (by decide)⟩

/-- C7: Jacobian addition is commutative up to the represented affine
point: for all Jacobian values P and Q over the (modelled) field,
`P + Q = Q + P` in the sense of `PartialEq for Jacobian`. -/
theorem claim_C7_add_comm {F : Type} [Field F] [DecidableEq F] (p q : Jacobian F) :
    Jacobian.jacEq (Jacobian.add p q) (Jacobian.add q p) :=
  Jacobian.add_comm_points p q

theorem claim_C7_witness :
    Jacobian.jacEq
      (Jacobian.add (⟨1, 2, 1⟩ : Jacobian (ZMod 5)) ⟨0, 1, 1⟩)
      (Jacobian.add (⟨0, 1, 1⟩ : Jacobian (ZMod 5)) ⟨1, 2, 1⟩) :=
  claim_C7_add_comm _ _

/-- C8 counterexample: on the input "zz" (a non-hex character after the
optional `0x` strip) `from_hex_str` hits `hex::decode(..).unwrap()` and
panics — modelled as `none`; no structured error value is returned (the
function's return type `U256` has no error channel). -/
theorem claim_C8_counterexample : U256.from_hex_str ['z', 'z'] = none := by decide

/-- C8 amended: for every input containing a character that is not a hex
digit (after stripping the `0x` prefix), `from_hex_str` aborts via the
`unwrap` panic (modelled as `none`) rather than returning a structured
parse error; only decimal parsing reports `ParseError` values. -/
theorem claim_C8_amended (s : List Char) (c : Char) (hc : c ∈ U256.strip0x s)
    (hv : U256.hexVal c = none) : U256.from_hex_str s = none :=
  U256.from_hex_str_invalid s c hc hv

theorem claim_C8_witness : U256.from_hex_str ['0', 'x', 'g', '1'] = none :=
  claim_C8_amended _ 'g' (by decide) (by decide)

/-- C9: the truncated 256-bit product `a * b` is exactly the low half of
`mul_full(a, b)` — the two mac chains compute the same low limbs. -/
theorem claim_C9_mul_is_mul_full_lo (a b : U256) : U256.mul a b = (U256.mul_full a b).1 :=
  U256.mul_eq_lo a b

theorem claim_C9_witness :
    U256.mul (U256.from_limbs 3 1 4 1) (U256.from_limbs 2 7 1 8)
      = (U256.mul_full (U256.from_limbs 3 1 4 1) (U256.from_limbs 2 7 1 8)).1 :=
  claim_C9_mul_is_mul_full_lo _ _

/-- C10: the `/` and `%` operators unwrap `divrem`: when the divisor is
nonzero they return exactly its quotient and remainder components, and when
the divisor is zero they panic on `unwrap` (modelled as `none`) instead of
returning an error value. -/
theorem claim_C10_div_rem_operators (a b : U256) :
    (b = U256.ZERO → U256.div a b = none ∧ U256.rem a b = none) ∧
    (b ≠ U256.ZERO → ∃ q r, U256.divrem a b = some (q, r) ∧
      U256.div a b = some q ∧ U256.rem a b = some r) := by
  constructor
  · intro h
    rw [U256.div, U256.rem, (U256.divrem_none_iff a b).mpr h]
    exact ⟨rfl, rfl⟩
  · intro h
    have hne : U256.divrem a b ≠ none := fun h0 => h ((U256.divrem_none_iff a b).mp h0)
    obtain ⟨⟨q, r⟩, hqr⟩ := Option.ne_none_iff_exists'.mp hne
    exact ⟨q, r, hqr, by simp [U256.div, hqr], by simp [U256.rem, hqr]⟩

theorem claim_C10_witness :
    U256.div (U256.from_limbs 100 0 0 0) U256.ZERO = none ∧
    U256.rem (U256.from_limbs 100 0 0 0) U256.ZERO = none :=
  (claim_C10_div_rem_operators _ _).1 rfl
